import Mathlib

/-!
Verification of the statevector-primitive caching layer
(`qiskit/primitives/statevector_primitive.py`) and of the backend-estimator
measurement/transpilation core specified in the repository documentation.

Machine floats that appear in the source only as opaque, hashable cache-key
components (parameter values) are modelled by `Int`: none of the verified
properties depends on arithmetic over the values, only on tuple equality.
-/

/-! ## Part A: `StatevectorPrimitive` (`statevector_primitive.py`) -/

/-- A quantum circuit as seen by `StatevectorPrimitive`: either an opaque
stored circuit, or the result of `QuantumCircuit.bind_parameters` applied to a
circuit with a parameter-to-value mapping.  Circuit parameters are modelled by
`Nat` identifiers and parameter values by `Int` (see module docstring). -/
inductive QC where
  | raw (id : Nat)
  | bindParameters (c : QC) (mapping : List (Nat × Int))
deriving DecidableEq, Repr

/-- The owning object: `self._circuits` and `self._parameters` (the declared
free-parameter list of each stored circuit, index-aligned). -/
structure StatevectorPrimitive where
  circuits : List QC
  parameters : List (List Nat)
deriving DecidableEq, Repr

/-- Python exceptions raised by the bind/build code: `IndexError` for an
out-of-range circuit index, `ValueError` for the count mismatch (carrying the
number of supplied values and the number of declared parameters). -/
inductive PrimError where
  | indexError
  | valueError (numValues numParameters : Nat)
deriving DecidableEq, Repr

/-- `StatevectorPrimitive._bind_circuit_parameters`: fetch the declared
parameter list (`IndexError` if out of range), raise `ValueError` when the
number of supplied values differs from the number of declared parameters,
return the stored circuit unmodified when the value tuple is empty, and
otherwise bind the zipped parameter-to-value mapping onto the circuit. -/
def StatevectorPrimitive.bindCircuitParameters (sp : StatevectorPrimitive)
    (circuitIndex : Nat) (parameterValues : List Int) : Except PrimError QC :=
  match sp.parameters[circuitIndex]? with
  | none => .error .indexError
  | some parameters =>
    if parameterValues.length ≠ parameters.length then
      .error (.valueError parameterValues.length parameters.length)
    else
      match sp.circuits[circuitIndex]? with
      | none => .error .indexError
      | some circuit =>
        if parameterValues.isEmpty then
          .ok circuit
        else
          .ok (.bindParameters circuit (parameters.zip parameterValues))

/-- The external exact-state evaluator `Statevector(circuit)`: per the spec it
is a pure, deterministic function of the fully-bound circuit, so it is
modelled as a constructor tagging the circuit it was evaluated on. -/
structure Statevector where
  circuit : QC
deriving DecidableEq, Repr

/-- The memoization table of `functools.lru_cache(maxsize=None)` applied to
`_build_statevector`, keyed by `(circuit_index, parameter_values)`. -/
abbrev CacheKey := Nat × List Int

/-- The cache contents, modelled as an association list (newest entry first). -/
abbrev Cache := List (CacheKey × Statevector)

/-- Dictionary lookup in the memoization table. -/
def cacheLookup : Cache → CacheKey → Option Statevector
  | [], _ => none
  | (k, sv) :: rest, key => if k = key then some sv else cacheLookup rest key

instance {ε α : Type} [DecidableEq ε] [DecidableEq α] :
    DecidableEq (Except ε α) := fun x y =>
  match x, y with
  | .ok a, .ok b => decidable_of_iff (a = b) (by simp)
  | .error a, .error b => decidable_of_iff (a = b) (by simp)
  | .ok _, .error _ => isFalse fun hc => Except.noConfusion hc
  | .error _, .ok _ => isFalse fun hc => Except.noConfusion hc

/-- One call to the memoized `_build_statevector`: the returned (or raised)
result, the cache state after the call, and how many times the wrapped
function body (parameter binding plus `Statevector` construction) ran. -/
structure BuildOutcome where
  result : Except PrimError Statevector
  cache : Cache
  evalCount : Nat
deriving DecidableEq, Repr

/-- `StatevectorPrimitive._build_statevector` under `@cache`: on a cache hit
the stored value is returned without running the body; on a miss the body runs
(binding the parameters, then evaluating `Statevector`), and—as with
`functools.lru_cache`—the result is stored only when the body returns
normally, never when it raises. -/
def StatevectorPrimitive.buildStatevector (sp : StatevectorPrimitive)
    (cache : Cache) (circuitIndex : Nat) (parameterValues : List Int) :
    BuildOutcome :=
  match cacheLookup cache (circuitIndex, parameterValues) with
  | some sv => { result := .ok sv, cache := cache, evalCount := 0 }
  | none =>
    match sp.bindCircuitParameters circuitIndex parameterValues with
    | .error e => { result := .error e, cache := cache, evalCount := 1 }
    | .ok circuit =>
      let sv : Statevector := ⟨circuit⟩
      { result := .ok sv
        cache := ((circuitIndex, parameterValues), sv) :: cache
        evalCount := 1 }

/-- C1: for a fixed `(circuit_index, parameter_values)` key, once a call to
the memoized `_build_statevector` has returned a state, an immediately
subsequent call with the same key returns the equal state, leaves the cache
unchanged, and runs the wrapped body zero times (no re-binding, no
re-evaluation). -/
theorem buildStatevector_memoized (sp : StatevectorPrimitive) (cache : Cache)
    (i : Nat) (v : List Int) (sv : Statevector)
    (h : (sp.buildStatevector cache i v).result = .ok sv) :
    sp.buildStatevector ((sp.buildStatevector cache i v).cache) i v =
      { result := .ok sv
        cache := (sp.buildStatevector cache i v).cache
        evalCount := 0 } := by
  unfold StatevectorPrimitive.buildStatevector at *
  cases hl : cacheLookup cache (i, v) with
  | some sv0 =>
    simp only [hl] at h ⊢
    simp only [Except.ok.injEq] at h
    subst h
    simp [hl]
  | none =>
    simp only [hl] at h ⊢
    cases hb : sp.bindCircuitParameters i v with
    | error e => simp [hb] at h
    | ok circuit =>
      simp only [hb, Except.ok.injEq] at h ⊢
      subst h
      simp [cacheLookup]

/-- Witness for C1 at a concrete primitive, key and empty cache. -/
theorem buildStatevector_memoized_witness :
    ((⟨[.raw 0], [[]]⟩ : StatevectorPrimitive).buildStatevector [] 0 []).result
        = .ok ⟨.raw 0⟩ ∧
    (⟨[.raw 0], [[]]⟩ : StatevectorPrimitive).buildStatevector
        (((⟨[.raw 0], [[]]⟩ : StatevectorPrimitive).buildStatevector [] 0 []).cache)
        0 [] =
      { result := .ok ⟨.raw 0⟩
        cache := ((⟨[.raw 0], [[]]⟩ : StatevectorPrimitive).buildStatevector
          [] 0 []).cache
        evalCount := 0 } :=
  ⟨by decide, buildStatevector_memoized _ _ 0 [] _ (by decide)⟩

/-- C2: whenever the supplied value tuple's length differs from the declared
parameter list's length, `_bind_circuit_parameters` (and hence a fresh-cache
`_build_statevector` call) raises exactly the count-mismatch `ValueError`;
when the lengths agree, no count-mismatch `ValueError` is ever raised. -/
theorem bindCircuitParameters_count_mismatch (sp : StatevectorPrimitive)
    (i : Nat) (v : List Int) (params : List Nat)
    (h : sp.parameters[i]? = some params) :
    (v.length ≠ params.length →
      sp.bindCircuitParameters i v =
          .error (.valueError v.length params.length) ∧
      (sp.buildStatevector [] i v).result =
          .error (.valueError v.length params.length)) ∧
    (v.length = params.length →
      ∀ a b : Nat, sp.bindCircuitParameters i v ≠ .error (.valueError a b)) := by
  constructor
  · intro hne
    have hb : sp.bindCircuitParameters i v =
        .error (.valueError v.length params.length) := by
      unfold StatevectorPrimitive.bindCircuitParameters
      simp [h, hne]
    refine ⟨hb, ?_⟩
    unfold StatevectorPrimitive.buildStatevector
    simp [cacheLookup, hb]
  · intro heq a b
    unfold StatevectorPrimitive.bindCircuitParameters
    simp only [h, heq]
    cases hc : sp.circuits[i]? with
    | none => simp
    | some c =>
      by_cases hv : v.isEmpty <;> simp [hv]

/-- Witness for C2 at a concrete primitive with one declared parameter. -/
theorem bindCircuitParameters_count_mismatch_witness :
    (⟨[.raw 0], [[3]]⟩ : StatevectorPrimitive).parameters[0]? = some [3] ∧
    ((([] : List Int).length ≠ [3].length →
      (⟨[.raw 0], [[3]]⟩ : StatevectorPrimitive).bindCircuitParameters 0 [] =
          .error (.valueError ([] : List Int).length [3].length) ∧
      ((⟨[.raw 0], [[3]]⟩ : StatevectorPrimitive).buildStatevector [] 0 []).result =
          .error (.valueError ([] : List Int).length [3].length)) ∧
    (([] : List Int).length = [3].length →
      ∀ a b : Nat,
        (⟨[.raw 0], [[3]]⟩ : StatevectorPrimitive).bindCircuitParameters 0 [] ≠
          .error (.valueError a b))) :=
  ⟨by decide, bindCircuitParameters_count_mismatch _ 0 [] [3] (by decide)⟩

/-- C3: a call to the memoized `_build_statevector` that raises an error
leaves the cache exactly as it was (no entry is created for the key), and an
immediately subsequent identical call re-runs the body (one new evaluation)
and raises the same error instead of returning a cached value. -/
theorem buildStatevector_error_not_memoized (sp : StatevectorPrimitive)
    (cache : Cache) (i : Nat) (v : List Int) (e : PrimError)
    (h : (sp.buildStatevector cache i v).result = .error e) :
    (sp.buildStatevector cache i v).cache = cache ∧
    sp.buildStatevector cache i v =
      { result := .error e, cache := cache, evalCount := 1 } ∧
    sp.buildStatevector ((sp.buildStatevector cache i v).cache) i v =
      { result := .error e, cache := cache, evalCount := 1 } := by
  unfold StatevectorPrimitive.buildStatevector at *
  cases hl : cacheLookup cache (i, v) with
  | some sv0 => simp [hl] at h
  | none =>
    simp only [hl] at h ⊢
    cases hb : sp.bindCircuitParameters i v with
    | error e0 =>
      simp only [hb, Except.error.injEq] at h ⊢
      subst h
      simp [hl, hb]
    | ok circuit => simp [hb] at h

/-- Witness for C3: a count-mismatch error on a fresh cache is not memoized
and recurs on the second call. -/
theorem buildStatevector_error_not_memoized_witness :
    ((⟨[.raw 0], [[7]]⟩ : StatevectorPrimitive).buildStatevector [] 0 []).result
        = .error (.valueError 0 1) ∧
    (((⟨[.raw 0], [[7]]⟩ : StatevectorPrimitive).buildStatevector [] 0 []).cache
        = [] ∧
    (⟨[.raw 0], [[7]]⟩ : StatevectorPrimitive).buildStatevector [] 0 [] =
      { result := .error (.valueError 0 1), cache := [], evalCount := 1 } ∧
    (⟨[.raw 0], [[7]]⟩ : StatevectorPrimitive).buildStatevector
        (((⟨[.raw 0], [[7]]⟩ : StatevectorPrimitive).buildStatevector
          [] 0 []).cache) 0 [] =
      { result := .error (.valueError 0 1), cache := [], evalCount := 1 }) :=
  ⟨by decide, buildStatevector_error_not_memoized _ [] 0 [] _ (by decide)⟩

/-- C4: on a circuit whose declared parameter list is empty, the empty value
tuple passes the length check and `_bind_circuit_parameters` returns the
stored circuit itself, unmodified and without error; the statevector is then
built directly from that stored circuit. -/
theorem bindCircuitParameters_no_parameters (sp : StatevectorPrimitive)
    (i : Nat) (c : QC)
    (hp : sp.parameters[i]? = some [])
    (hc : sp.circuits[i]? = some c) :
    sp.bindCircuitParameters i [] = .ok c ∧
    (sp.buildStatevector [] i []).result = .ok ⟨c⟩ := by
  have hb : sp.bindCircuitParameters i [] = .ok c := by
    unfold StatevectorPrimitive.bindCircuitParameters
    simp [hp, hc]
  refine ⟨hb, ?_⟩
  unfold StatevectorPrimitive.buildStatevector
  simp [cacheLookup, hb]

/-- Witness for C4 at a concrete parameter-free circuit. -/
theorem bindCircuitParameters_no_parameters_witness :
    (⟨[.raw 5], [[]]⟩ : StatevectorPrimitive).parameters[0]? = some [] ∧
    (⟨[.raw 5], [[]]⟩ : StatevectorPrimitive).circuits[0]? = some (.raw 5) ∧
    ((⟨[.raw 5], [[]]⟩ : StatevectorPrimitive).bindCircuitParameters 0 [] =
        .ok (.raw 5) ∧
    ((⟨[.raw 5], [[]]⟩ : StatevectorPrimitive).buildStatevector [] 0 []).result =
        .ok ⟨.raw 5⟩) :=
  ⟨by decide, by decide,
    bindCircuitParameters_no_parameters _ 0 (.raw 5) (by decide) (by decide)⟩

/-- C10: with a nonempty declared parameter list, calling with the empty value
tuple hits the length check first and raises the count-mismatch `ValueError`;
the bind-free shortcut is never taken for a parametrized circuit. -/
theorem bindCircuitParameters_empty_values_mismatch (sp : StatevectorPrimitive)
    (i : Nat) (params : List Nat)
    (hp : sp.parameters[i]? = some params) (hne : params ≠ []) :
    sp.bindCircuitParameters i [] =
      .error (.valueError 0 params.length) ∧
    (sp.buildStatevector [] i []).result =
      .error (.valueError 0 params.length) := by
  have hlen : (0 : Nat) ≠ params.length := by
    intro h0
    exact hne (List.length_eq_zero.mp h0.symm)
  have hb : sp.bindCircuitParameters i [] =
      .error (.valueError 0 params.length) := by
    unfold StatevectorPrimitive.bindCircuitParameters
    simp [hp, hlen]
  refine ⟨hb, ?_⟩
  unfold StatevectorPrimitive.buildStatevector
  simp [cacheLookup, hb]

/-- Witness for C10 at a concrete one-parameter circuit. -/
theorem bindCircuitParameters_empty_values_mismatch_witness :
    (⟨[.raw 0], [[7]]⟩ : StatevectorPrimitive).parameters[0]? = some [7] ∧
    ([7] : List Nat) ≠ [] ∧
    ((⟨[.raw 0], [[7]]⟩ : StatevectorPrimitive).bindCircuitParameters 0 [] =
        .error (.valueError 0 1) ∧
    ((⟨[.raw 0], [[7]]⟩ : StatevectorPrimitive).buildStatevector [] 0 []).result =
        .error (.valueError 0 1)) :=
  ⟨by decide, by decide,
    bindCircuitParameters_empty_values_mismatch _ 0 [7] (by decide) (by decide)⟩

/-! ## Part B: `backend_estimator_dev` measurement and transpilation core

The implementation module `qiskit/primitives/backend_estimator_dev.py` is not
part of this source tree (only its unit tests are), so the definitions below
are modelled from the specification's description of its components and
cross-checked against the expectations recorded in the unit tests. -/

/-- Single-qubit Pauli label. -/
inductive PauliLabel where
  | I
  | X
  | Y
  | Z
deriving DecidableEq, Repr

/-- A Pauli term: the per-qubit label sequence, entry `q` being qubit `q`'s
label (the overall phase plays no role in the verified properties). -/
abbrev PauliTerm := List PauliLabel

/-- The label of qubit `q` in a term; qubits beyond the sequence are `I`. -/
def labelAt (t : PauliTerm) (q : Nat) : PauliLabel :=
  t.getD q .I

/-- Modelled from the spec: the measured-qubit-indices of a Pauli term — the
indices whose label is not `I`, in increasing order, with the all-identity
convention of still measuring qubit 0. -/
def measuredIndices (t : PauliTerm) : List Nat :=
  let idxs := (List.range t.length).filter fun q => labelAt t q ≠ .I
  if idxs.isEmpty then [0] else idxs

/-- Circuit instructions appearing in measurement circuits: Hadamard,
inverse-S, and measurement of a qubit into a classical bit. -/
inductive Gate where
  | h (q : Nat)
  | sdg (q : Nat)
  | measure (q : Nat) (c : Nat)
deriving DecidableEq, Repr

/-- A measurement circuit with its recorded metadata
(`measured_qubit_indices`). -/
structure MeasurementCircuit where
  numQubits : Nat
  numClbits : Nat
  data : List Gate
  metadata : List Nat
deriving DecidableEq, Repr

/-- Modelled from the spec: the basis-change gates for one qubit — Hadamard
for `X`, inverse-S then Hadamard for `Y`, nothing for `Z` or `I`. -/
def basisGatesFor (l : PauliLabel) (q : Nat) : List Gate :=
  match l with
  | .X => [.h q]
  | .Y => [.sdg q, .h q]
  | _ => []

/-- Modelled from the spec: `BackendEstimator._build_pauli_measurement`
(absent from this source tree; its unit tests fix the expected circuits).
Basis-change gates are emitted per qubit in decreasing qubit order, as in the
test circuits, then each measured qubit is measured, in increasing qubit
order, into classical bits allocated 1:1 in that order; the metadata records
the measured-qubit-indices tuple. -/
def buildPauliMeasurement (t : PauliTerm) : MeasurementCircuit :=
  let idxs := measuredIndices t
  let basisChange :=
    ((List.range t.length).reverse.map fun q => basisGatesFor (labelAt t q) q).flatten
  let measGates := idxs.enum.map fun p => Gate.measure p.2 p.1
  { numQubits := t.length
    numClbits := idxs.length
    data := basisChange ++ measGates
    metadata := idxs }

/-- Extracts the (qubit, clbit) pair of a measurement instruction. -/
def measOf : Gate → Option (Nat × Nat)
  | .measure q cl => some (q, cl)
  | _ => none

/-- The measurement instructions of a circuit, as (qubit, clbit) pairs in
instruction order. -/
def measurementsOf (c : MeasurementCircuit) : List (Nat × Nat) :=
  c.data.filterMap measOf

/-- Whether a gate is a non-measurement gate acting on qubit `q`. -/
def actsOn (q : Nat) : Gate → Bool
  | .h p => decide (p = q)
  | .sdg p => decide (p = q)
  | .measure _ _ => false

/-- The non-measurement gates of a circuit that act on qubit `q`, in
instruction order. -/
def unitariesOn (c : MeasurementCircuit) (q : Nat) : List Gate :=
  c.data.filter (actsOn q)

example : buildPauliMeasurement [.Y, .X] =
    { numQubits := 2
      numClbits := 2
      data := [.h 1, .sdg 0, .h 0, .measure 0 0, .measure 1 1]
      metadata := [0, 1] } := by decide

example : buildPauliMeasurement [.I, .I] =
    { numQubits := 2
      numClbits := 1
      data := [.measure 0 0]
      metadata := [0] } := by decide

example : buildPauliMeasurement [.X, .I, .Y] =
    { numQubits := 3
      numClbits := 2
      data := [.sdg 2, .h 2, .h 0, .measure 0 0, .measure 2 1]
      metadata := [0, 2] } := by decide

lemma labelAt_eq_getElem (t : PauliTerm) (q : Nat) (h : q < t.length) :
    labelAt t q = t[q] :=
  List.getD_eq_getElem t .I h

lemma labelAt_of_le (t : PauliTerm) (q : Nat) (h : t.length ≤ q) :
    labelAt t q = .I :=
  List.getD_eq_default t .I h

lemma mem_basisGatesFor {g : Gate} {l : PauliLabel} {p : Nat}
    (h : g ∈ basisGatesFor l p) : g = .h p ∨ g = .sdg p := by
  cases l <;> simp [basisGatesFor] at h <;> tauto

lemma measOf_basisGatesFor {g : Gate} {l : PauliLabel} {p : Nat}
    (h : g ∈ basisGatesFor l p) : measOf g = none := by
  rcases mem_basisGatesFor h with rfl | rfl <;> rfl

lemma filterMap_some_eq_map {α β : Type} (f : α → β) (l : List α) :
    l.filterMap (fun a => some (f a)) = l.map f := by
  induction l with
  | nil => rfl
  | cons a l ih => simp [List.filterMap_cons, ih]

lemma filter_actsOn_basisGatesFor (q : Nat) (l : PauliLabel) (p : Nat) :
    (basisGatesFor l p).filter (actsOn q) =
      if p = q then basisGatesFor l q else [] := by
  by_cases hpq : p = q <;> cases l <;> simp [basisGatesFor, actsOn, hpq]

lemma filter_actsOn_flatten (f : Nat → PauliLabel) (q : Nat) :
    ∀ qs : List Nat, qs.Nodup →
      ((qs.map fun p => basisGatesFor (f p) p).flatten.filter (actsOn q)) =
        if q ∈ qs then basisGatesFor (f q) q else [] := by
  intro qs
  induction qs with
  | nil => simp
  | cons p rest ih =>
    intro hnd
    obtain ⟨hp, hrest⟩ := List.nodup_cons.mp hnd
    simp only [List.map_cons, List.flatten_cons, List.filter_append,
      filter_actsOn_basisGatesFor, ih hrest]
    by_cases hpq : p = q
    · subst hpq
      simp [hp]
    · have hqp : ¬ q = p := fun h => hpq h.symm
      simp [hpq, hqp, List.mem_cons]

lemma measuredIndices_of_all_I (t : PauliTerm) (h : ∀ l ∈ t, l = .I) :
    measuredIndices t = [0] := by
  have hfil : (List.range t.length).filter (fun q => decide (labelAt t q ≠ .I)) = [] := by
    apply List.filter_eq_nil_iff.mpr
    intro q hq
    have hql : q < t.length := List.mem_range.mp hq
    have : labelAt t q = .I := by
      rw [labelAt_eq_getElem t q hql]
      exact h _ (t.getElem_mem hql)
    simp [this]
  show (if ((List.range t.length).filter
        (fun q => decide (labelAt t q ≠ .I))).isEmpty = true
      then [0]
      else (List.range t.length).filter (fun q => decide (labelAt t q ≠ .I))) = [0]
  rw [hfil]
  rfl

lemma measuredIndices_of_mixed (t : PauliTerm) (h : ¬ ∀ l ∈ t, l = .I) :
    measuredIndices t =
      (List.range t.length).filter (fun q => decide (labelAt t q ≠ .I)) := by
  push_neg at h
  obtain ⟨l, hl, hlne⟩ := h
  obtain ⟨q, hq, rfl⟩ := List.mem_iff_getElem.mp hl
  have hmem : q ∈ (List.range t.length).filter (fun q => decide (labelAt t q ≠ .I)) := by
    apply List.mem_filter.mpr
    refine ⟨List.mem_range.mpr hq, ?_⟩
    rw [labelAt_eq_getElem t q hq]
    simpa using hlne
  have hne : ((List.range t.length).filter
      (fun q => decide (labelAt t q ≠ .I))).isEmpty = false := by
    rcases hfe : (List.range t.length).filter (fun q => decide (labelAt t q ≠ .I))
      with _ | ⟨a, as⟩
    · rw [hfe] at hmem; simp at hmem
    · rfl
  show (if ((List.range t.length).filter
        (fun q => decide (labelAt t q ≠ .I))).isEmpty = true
      then [0]
      else (List.range t.length).filter (fun q => decide (labelAt t q ≠ .I))) = _
  rw [hne]
  rfl

/-- C5: for every Pauli term `t`, the synthesized measurement circuit measures
exactly the non-`I` qubits of `t` (qubit 0 for the all-`I` term), in strictly
increasing qubit order, onto classical bits allocated 1:1 in that order after
all basis-change gates; each `X` qubit gets a Hadamard, each `Y` qubit an
inverse-S then a Hadamard, each `Z` qubit no gate; and the metadata records
exactly the measured-qubit-indices tuple. -/
theorem buildPauliMeasurement_correct (t : PauliTerm) :
    (buildPauliMeasurement t).metadata = measuredIndices t ∧
    List.Pairwise (· < ·) (buildPauliMeasurement t).metadata ∧
    (∀ q : Nat, q ∈ (buildPauliMeasurement t).metadata ↔
      (labelAt t q ≠ .I ∨ ((∀ l ∈ t, l = .I) ∧ q = 0))) ∧
    measurementsOf (buildPauliMeasurement t) =
      (measuredIndices t).enum.map (fun p => (p.2, p.1)) ∧
    (∀ q : Nat,
      unitariesOn (buildPauliMeasurement t) q = basisGatesFor (labelAt t q) q) ∧
    (buildPauliMeasurement t).numClbits = (measuredIndices t).length ∧
    (buildPauliMeasurement t).data =
      ((List.range t.length).reverse.map fun q => basisGatesFor (labelAt t q) q).flatten
        ++ (measurementsOf (buildPauliMeasurement t)).map
            (fun p => Gate.measure p.1 p.2) := by
  have hmeas : measurementsOf (buildPauliMeasurement t) =
      (measuredIndices t).enum.map (fun p => (p.2, p.1)) := by
    unfold measurementsOf buildPauliMeasurement
    simp only [List.filterMap_append]
    have h1 : (((List.range t.length).reverse.map
        fun q => basisGatesFor (labelAt t q) q).flatten.filterMap measOf) = [] := by
      apply List.filterMap_eq_nil_iff.mpr
      intro g hg
      obtain ⟨seg, hseg, hgin⟩ := List.mem_flatten.mp hg
      obtain ⟨p, _, rfl⟩ := List.mem_map.mp hseg
      exact measOf_basisGatesFor hgin
    have h2 : (((measuredIndices t).enum.map
        fun p => Gate.measure p.2 p.1).filterMap measOf) =
        (measuredIndices t).enum.map (fun p => (p.2, p.1)) := by
      rw [List.filterMap_map]
      exact filterMap_some_eq_map (fun p : Nat × Nat => (p.2, p.1))
        (measuredIndices t).enum
    rw [h1, h2]
    rfl
  refine ⟨rfl, ?_, ?_, hmeas, ?_, rfl, ?_⟩
  · show List.Pairwise (· < ·) (measuredIndices t)
    by_cases hall : ∀ l ∈ t, l = .I
    · rw [measuredIndices_of_all_I t hall]
      simp
    · rw [measuredIndices_of_mixed t hall]
      exact List.Pairwise.filter _ (List.pairwise_lt_range t.length)
  · intro q
    show q ∈ measuredIndices t ↔ _
    by_cases hall : ∀ l ∈ t, l = .I
    · rw [measuredIndices_of_all_I t hall]
      have hqI : labelAt t q = .I := by
        rcases Nat.lt_or_ge q t.length with hlt | hge
        · rw [labelAt_eq_getElem t q hlt]
          exact hall _ (t.getElem_mem hlt)
        · exact labelAt_of_le t q hge
      simp only [List.mem_singleton, hqI, ne_eq, not_true_eq_false, false_or]
      constructor
      · intro h
        exact ⟨hall, h⟩
      · rintro ⟨_, h⟩
        exact h
    · rw [measuredIndices_of_mixed t hall]
      simp only [List.mem_filter, List.mem_range, decide_eq_true_eq]
      constructor
      · rintro ⟨_, hne⟩
        exact Or.inl hne
      · rintro (hne | ⟨hall2, _⟩)
        · refine ⟨?_, hne⟩
          by_contra hge
          exact hne (labelAt_of_le t q (Nat.le_of_not_lt hge))
        · exact absurd hall2 hall
  · intro q
    unfold unitariesOn buildPauliMeasurement
    simp only [List.filter_append]
    have h2 : (((measuredIndices t).enum.map
        fun p => Gate.measure p.2 p.1).filter (actsOn q)) = [] := by
      apply List.filter_eq_nil_iff.mpr
      intro g hg
      obtain ⟨p, _, rfl⟩ := List.mem_map.mp hg
      simp [actsOn]
    have h1 := filter_actsOn_flatten (fun q => labelAt t q) q
      (List.range t.length).reverse
      (List.nodup_reverse.mpr (List.nodup_range _))
    rw [h1, h2, List.append_nil]
    by_cases hq : q ∈ (List.range t.length).reverse
    · rw [if_pos hq]
    · rw [if_neg hq]
      have hge : t.length ≤ q := by
        by_contra hlt
        exact hq (List.mem_reverse.mpr (List.mem_range.mpr (Nat.lt_of_not_le hlt)))
      rw [labelAt_of_le t q hge]
      rfl
  · rw [hmeas, List.map_map]
    rfl

/-- Qubit-wise commutation of two Pauli terms: on every qubit the labels are
equal or at least one is `I`. -/
def qubitWiseCommute (a b : PauliTerm) : Bool :=
  (List.range (max a.length b.length)).all fun q =>
    labelAt a q = labelAt b q || labelAt a q = .I || labelAt b q = .I

/-- A measurement group under construction: the resolved per-qubit basis
(label `I` where no member constrains the qubit) and the member terms. -/
structure MeasurementGroup where
  basis : PauliTerm
  terms : List PauliTerm
deriving DecidableEq, Repr

/-- Modelled from the spec: merging a compatible term into a group's resolved
per-qubit basis — qubits on which the basis is still `I` take the term's
label, the others keep theirs. -/
def mergeBasis (basis t : PauliTerm) : PauliTerm :=
  (List.range (max basis.length t.length)).map fun q =>
    match labelAt basis q with
    | .I => labelAt t q
    | b => b

/-- Modelled from the spec: one step of the greedy first-fit grouping — try
each open group in order and add the term to the first one whose resolved
basis is compatible (equal or `I` per qubit) with it, updating that group's
basis; if none fits, open a new group with the term's own basis. -/
def addToGroups (groups : List MeasurementGroup) (t : PauliTerm) :
    List MeasurementGroup :=
  match groups with
  | [] => [⟨t, [t]⟩]
  | g :: gs =>
    if qubitWiseCommute g.basis t then
      ⟨mergeBasis g.basis t, g.terms ++ [t]⟩ :: gs
    else
      g :: addToGroups gs t

/-- Modelled from the spec: `AbelianDecomposer.decompose` (absent from this
source tree) — greedy first-fit partition of the observable's terms, in
declaration order, into qubit-wise-commuting groups. -/
def AbelianDecomposer.decompose (observable : List PauliTerm) :
    List MeasurementGroup :=
  observable.foldl addToGroups []

/-- Modelled from the spec: `NaiveDecomposer.decompose` (absent from this
source tree) — every term becomes its own singleton group. -/
def NaiveDecomposer.decompose (observable : List PauliTerm) :
    List MeasurementGroup :=
  observable.map fun t => ⟨t, [t]⟩

example : (AbelianDecomposer.decompose
    [[.X, .X], [.I, .X], [.X, .I], [.I, .I]]).map MeasurementGroup.terms =
    [[[.X, .X], [.I, .X], [.X, .I], [.I, .I]]] := by decide

example : (AbelianDecomposer.decompose
    [[.X, .Z], [.Z, .X], [.X, .I]]).map MeasurementGroup.terms =
    [[[.X, .Z], [.X, .I]], [[.Z, .X]]] := by decide

/-- Qubit-wise commutation as the spec phrases it: for every qubit the two
labels are equal or at least one is `I`. -/
def QWCommutes (a b : PauliTerm) : Prop :=
  ∀ q : Nat, labelAt a q = labelAt b q ∨ labelAt a q = .I ∨ labelAt b q = .I

/-- A group's resolved basis covers a member: wherever the member is not `I`,
the basis carries the member's label. -/
def Covers (basis s : PauliTerm) : Prop :=
  ∀ q : Nat, labelAt s q ≠ .I → labelAt basis q = labelAt s q

/-- Every group produced by the greedy grouping keeps its members covered by
its resolved basis. -/
def GroupSound (g : MeasurementGroup) : Prop :=
  ∀ s ∈ g.terms, Covers g.basis s

lemma qwCommutes_of_covers {b s s' : PauliTerm}
    (h1 : Covers b s) (h2 : Covers b s') : QWCommutes s s' := by
  intro q
  by_cases hs : labelAt s q = .I
  · exact Or.inr (Or.inl hs)
  · by_cases hs' : labelAt s' q = .I
    · exact Or.inr (Or.inr hs')
    · exact Or.inl ((h1 q hs).symm.trans (h2 q hs'))

lemma covers_self (t : PauliTerm) : Covers t t := fun _ _ => rfl

lemma labelAt_ne_I_lt {t : PauliTerm} {q : Nat} (h : labelAt t q ≠ .I) :
    q < t.length := by
  by_contra hge
  exact h (labelAt_of_le t q (Nat.le_of_not_lt hge))

lemma labelAt_mergeBasis (b t : PauliTerm) (q : Nat)
    (h : q < max b.length t.length) :
    labelAt (mergeBasis b t) q =
      match labelAt b q with
      | .I => labelAt t q
      | x => x := by
  have hlen : (mergeBasis b t).length = max b.length t.length := by
    simp [mergeBasis]
  have hq : q < (mergeBasis b t).length := by rw [hlen]; exact h
  rw [labelAt_eq_getElem _ q hq]
  simp [mergeBasis]

lemma covers_mergeBasis_left {b s : PauliTerm} (t : PauliTerm)
    (h : Covers b s) : Covers (mergeBasis b t) s := by
  intro q hq
  have hb : labelAt b q = labelAt s q := h q hq
  have hbI : labelAt b q ≠ .I := by rw [hb]; exact hq
  have hlt : q < b.length := labelAt_ne_I_lt hbI
  rw [labelAt_mergeBasis b t q (Nat.lt_of_lt_of_le hlt (Nat.le_max_left _ _))]
  rcases hx : labelAt b q with _ | _ | _ | _ <;> rw [hx] at hb <;>
    first
      | exact absurd hx hbI
      | exact hb

lemma covers_mergeBasis_right {b t : PauliTerm}
    (h : qubitWiseCommute b t = true) : Covers (mergeBasis b t) t := by
  intro q hq
  have hlt : q < t.length := labelAt_ne_I_lt hq
  have hmax : q < max b.length t.length :=
    Nat.lt_of_lt_of_le hlt (Nat.le_max_right _ _)
  have hpred := List.all_eq_true.mp h q (List.mem_range.mpr hmax)
  simp only [Bool.or_eq_true, decide_eq_true_eq] at hpred
  rw [labelAt_mergeBasis b t q hmax]
  rcases hx : labelAt b q with _ | _ | _ | _
  · rfl
  all_goals {
    rw [hx] at hpred
    rcases hpred with (hpred | hpred) | hpred
    · exact hpred
    · exact absurd hpred (by simp)
    · exact absurd hpred hq }

lemma addToGroups_sound (t : PauliTerm) :
    ∀ groups : List MeasurementGroup, (∀ g ∈ groups, GroupSound g) →
      ∀ g ∈ addToGroups groups t, GroupSound g := by
  intro groups
  induction groups with
  | nil =>
    intro _ g hg
    simp only [addToGroups, List.mem_singleton] at hg
    subst hg
    intro s hs
    simp only [List.mem_singleton] at hs
    subst hs
    exact covers_self _
  | cons g0 gs ih =>
    intro h g hg
    unfold addToGroups at hg
    by_cases hc : qubitWiseCommute g0.basis t
    · rw [if_pos hc] at hg
      rcases List.mem_cons.mp hg with rfl | hgs
      · intro s hs
        rcases List.mem_append.mp hs with hs0 | hst
        · exact covers_mergeBasis_left t (h g0 (List.mem_cons_self g0 gs) s hs0)
        · simp only [List.mem_singleton] at hst
          subst hst
          exact covers_mergeBasis_right hc
      · exact h g (List.mem_cons_of_mem g0 hgs)
    · rw [if_neg hc] at hg
      rcases List.mem_cons.mp hg with rfl | hgs
      · exact h g (List.mem_cons_self g gs)
      · exact ih (fun g' hg' => h g' (List.mem_cons_of_mem g0 hg')) g hgs

lemma foldl_addToGroups_sound (observable : List PauliTerm) :
    ∀ acc : List MeasurementGroup, (∀ g ∈ acc, GroupSound g) →
      ∀ g ∈ observable.foldl addToGroups acc, GroupSound g := by
  induction observable with
  | nil => intro acc h; simpa using h
  | cons t rest ih =>
    intro acc h g hg
    exact ih (addToGroups acc t) (addToGroups_sound t acc h) g hg

/-- C6: every group produced by the greedy `AbelianDecomposer` contains only
pairwise qubit-wise-commuting terms (per qubit: equal labels or at least one
`I`), and `NaiveDecomposer` yields exactly one singleton group per input
term. -/
theorem decomposer_grouping_sound (observable : List PauliTerm) :
    (∀ g ∈ AbelianDecomposer.decompose observable,
      g.terms.Pairwise QWCommutes) ∧
    (NaiveDecomposer.decompose observable).length = observable.length ∧
    (∀ g ∈ NaiveDecomposer.decompose observable, ∃ t, g.terms = [t]) := by
  refine ⟨?_, ?_, ?_⟩
  · intro g hg
    have hsound : GroupSound g :=
      foldl_addToGroups_sound observable [] (by simp) g hg
    exact List.pairwise_of_forall_mem_list fun a ha b hb =>
      qwCommutes_of_covers (hsound a ha) (hsound b hb)
  · simp [NaiveDecomposer.decompose]
  · intro g hg
    obtain ⟨t, _, rfl⟩ := List.mem_map.mp hg
    exact ⟨t, rfl⟩

/-- A circuit as seen by the transpilation layout tracker: its qubit count,
its measurement instructions as (qubit, clbit) pairs in instruction order,
and the optional `final_layout` metadata entry.  Non-measurement gate content
is irrelevant to every verified property and is not tracked. -/
structure TCircuit where
  numQubits : Nat
  measures : List (Nat × Nat)
  metadata_final_layout : Option (List (Nat × Nat))
deriving DecidableEq, Repr

/-- `QuantumCircuit.measure_all()`: append a measurement of every qubit, in
qubit order, onto freshly allocated classical bits 0, 1, …. -/
def measureAllOn (c : TCircuit) : TCircuit :=
  { c with measures := c.measures ++ (List.range c.numQubits).map fun i => (i, i) }

/-- Modelled from the spec: a layout-setting plus layout-application pass
sequence (`SetLayout` + `ApplyLayout`) with logical-to-physical map
`q ↦ intlist[q]` onto a `target`-qubit register — instructions keep their
classical bits and have their qubits remapped, with no routing or further
permutation. -/
def applyLayoutPass (target : Nat) (intlist : List Nat) (c : TCircuit) :
    TCircuit :=
  { numQubits := target
    measures := c.measures.map fun p => (intlist.getD p.1 0, p.2)
    metadata_final_layout := c.metadata_final_layout }

/-- A layout as the list of (logical, physical) qubit pairs in increasing
logical order; unmapped physical qubits are simply absent. -/
abbrev Layout := List (Nat × Nat)

/-- The layout applied by a layout-setting pass with integer list `intlist`:
logical qubit `q` is mapped to physical qubit `intlist[q]`. -/
def layoutOfIntlist (intlist : List Nat) : Layout :=
  (List.range intlist.length).zip intlist

/-- Modelled from the spec: `BackendEstimator._infer_final_layout` (absent
from this source tree) — under the invariants that the original circuit ends
in an unconditional measure-all and that the transpiler preserves the
relative order of classical bits, the physical qubit measured into classical
bit `i` is read from the transpiled circuit's own measurement instructions,
in classical-bit order, and paired with logical qubit `i`. -/
def inferFinalLayout (original transpiled : TCircuit) : Layout :=
  (List.range original.numQubits).zip (transpiled.measures.map Prod.fst)

lemma map_getD_range (l : List Nat) :
    (List.range l.length).map (fun i => l.getD i 0) = l := by
  apply List.ext_getElem
  · simp
  · intro i h1 h2
    simp only [List.getElem_map, List.getElem_range]
    exact List.getD_eq_getElem l 0 h2

/-- C7: applying only a layout-setting plus layout-application pass sequence
to a measure-all original circuit and running `infer_final_layout` on the
(original, transpiled) pair recovers exactly the applied layout. -/
theorem inferFinalLayout_roundtrip (n target : Nat) (intlist : List Nat)
    (hlen : intlist.length = n) :
    inferFinalLayout
        (measureAllOn { numQubits := n, measures := [], metadata_final_layout := none })
        (applyLayoutPass target intlist
          (measureAllOn { numQubits := n, measures := [], metadata_final_layout := none })) =
      layoutOfIntlist intlist := by
  subst hlen
  unfold inferFinalLayout applyLayoutPass measureAllOn layoutOfIntlist
  simp only [List.nil_append, List.map_map]
  have hcomp : (Prod.fst ∘ ((fun p : Nat × Nat => (intlist.getD p.1 0, p.2)) ∘
      fun i : Nat => (i, i))) = fun i => intlist.getD i 0 := rfl
  rw [hcomp, map_getD_range]

/-- Witness for C7: the 2-qubit original under logical-to-physical mapping
0 ↦ 1, 1 ↦ 3 on a 4-qubit target recovers exactly that mapping. -/
theorem inferFinalLayout_roundtrip_witness :
    ([1, 3] : List Nat).length = 2 ∧
    inferFinalLayout
        (measureAllOn { numQubits := 2, measures := [], metadata_final_layout := none })
        (applyLayoutPass 4 [1, 3]
          (measureAllOn { numQubits := 2, measures := [], metadata_final_layout := none })) =
      layoutOfIntlist [1, 3] :=
  ⟨by decide, inferFinalLayout_roundtrip 2 4 [1, 3] (by decide)⟩

example : layoutOfIntlist [1, 3] = [(0, 1), (1, 3)] := by decide

/-- A Python-level argument to `_run_bound_pass_manager`: either an actual
circuit or some non-circuit object. -/
inductive CircuitInput where
  | circuit (c : TCircuit)
  | notACircuit (tag : Nat)
deriving DecidableEq, Repr

/-- The error raised by `_run_bound_pass_manager` on non-circuit input. -/
inductive EstimatorError where
  | typeError
deriving DecidableEq, Repr

/-- Modelled from the spec: `BackendEstimator._run_bound_pass_manager`
(absent from this source tree) — raise a `TypeError` on a non-circuit input;
with no bound pass manager configured return the input circuit itself; with
one configured run it on the input and return its output.  The pass manager
is modelled by the circuit transformation it applies; the second component
counts how many times its `run` method was invoked. -/
def runBoundPassManager (boundPassManager : Option (TCircuit → TCircuit))
    (input : CircuitInput) : Except EstimatorError TCircuit × Nat :=
  match input with
  | .notACircuit _ => (.error .typeError, 0)
  | .circuit c =>
    match boundPassManager with
    | none => (.ok c, 0)
    | some run => (.ok (run c), 1)

/-- C8: the full `_run_bound_pass_manager` contract — identity (the very
input circuit, with zero pass-manager invocations) when no bound pass manager
is configured, exactly the configured pass manager's output with one
invocation when one is, and a `TypeError` on any non-circuit input. -/
theorem runBoundPassManager_contract (c : TCircuit) (tag : Nat)
    (pm : TCircuit → TCircuit) :
    runBoundPassManager none (.circuit c) = (.ok c, 0) ∧
    runBoundPassManager (some pm) (.circuit c) = (.ok (pm c), 1) ∧
    runBoundPassManager none (.notACircuit tag) = (.error .typeError, 0) ∧
    runBoundPassManager (some pm) (.notACircuit tag) =
      (.error .typeError, 0) :=
  ⟨rfl, rfl, rfl, rfl⟩

/-- An opaque backend handle, passed through to the external transpiler. -/
abbrev BackendHandle := Nat

/-- Modelled from the spec: `BackendEstimator._transpile` (absent from this
source tree) — append a measure-all to the input circuit, invoke the external
`transpile(measured_circuit, backend)` exactly once, and return its output
circuit with `metadata["final_layout"]` set to the layout inferred from the
(pre-transpile, post-transpile) pair.  The external transpiler is a function
argument; alongside the result, the log of its invocations is returned. -/
def transpileTracked
    (externalTranspile : TCircuit → BackendHandle → TCircuit)
    (backend : BackendHandle) (circuit : TCircuit) :
    TCircuit × List (TCircuit × BackendHandle) :=
  let measured := measureAllOn circuit
  let transpiled := externalTranspile measured backend
  ({ transpiled with
      metadata_final_layout := some (inferFinalLayout measured transpiled) },
    [(measured, backend)])

/-- C9: `_transpile` measures every qubit of its input, calls the external
transpiler exactly once with the measured circuit and the backend, and
returns the transpiler's output with `final_layout` metadata inferred from
the (pre-transpile, post-transpile) pair. -/
theorem transpile_contract
    (externalTranspile : TCircuit → BackendHandle → TCircuit)
    (backend : BackendHandle) (circuit : TCircuit) :
    (transpileTracked externalTranspile backend circuit).2 =
      [(measureAllOn circuit, backend)] ∧
    (measureAllOn circuit).measures =
      circuit.measures ++ (List.range circuit.numQubits).map (fun i => (i, i)) ∧
    (transpileTracked externalTranspile backend circuit).1 =
      { externalTranspile (measureAllOn circuit) backend with
          metadata_final_layout :=
            some (inferFinalLayout (measureAllOn circuit)
              (externalTranspile (measureAllOn circuit) backend)) } :=
  ⟨rfl, rfl, rfl⟩
